import Mathlib

/-!
Verification of the formula-group deletion and tree-index regeneration
algorithm of `pkg/cmd/delete_formula.go`.

The embedding models the filesystem as a tree of named nodes and every
filesystem-touching function of the source as a pure function over an
explicit state.  The state also carries an event log (one event per
directory listing, per recursive removal, per index generation and per
index write), so that ordering and exactly-once claims become statements
about the log.  The only filesystem failure an ideal disk can produce is
reading a directory that does not exist (ENOENT from `ioutil.ReadDir`);
`os.RemoveAll` on a missing path succeeds by contract, and is modelled as
total.  The tree generator and the interactive prompt subsystem are
injected collaborators in the source and enter the model as function
parameters.
-/

namespace DeleteFormulaGo

/-- A filesystem node: a plain file, or a directory holding an ordered list
of named entries. -/
inductive FsNode where
  | file : FsNode
  | dir : List (String × FsNode) → FsNode

/-- Mirror of `os.FileInfo.IsDir`. -/
def FsNode.isDir : FsNode → Bool
  | .dir _ => true
  | .file => false

/-- Look up the first entry with the given name in a directory listing. -/
def findEntry : List (String × FsNode) → String → Option FsNode
  | [], _ => none
  | c :: cs, s => if c.1 == s then some c.2 else findEntry cs s

/-- Resolve a path (a list of segment names) inside a node, as the kernel
does when a Go function receives a joined `filepath.Join` string. -/
def findNode : FsNode → List String → Option FsNode
  | n, [] => some n
  | .file, _ :: _ => none
  | .dir cs, s :: rest =>
    match findEntry cs s with
    | none => none
    | some child => findNode child rest

/-- Semantics of `os.RemoveAll path`: delete the entry at the path together
with everything beneath it; removing a missing path is a successful no-op.
Removal at the empty path (the top of the modelled filesystem) never occurs
in the source, where every root is a non-empty joined path. -/
def removeAll : FsNode → List String → FsNode
  | n, [] => n
  | .file, _ :: _ => .file
  | .dir cs, s :: rest =>
    if rest.isEmpty then
      .dir (cs.filter fun c => !(c.1 == s))
    else
      .dir (cs.map fun c => if c.1 == s then (c.1, removeAll c.2 rest) else c)

/-- Error values surfaced by the operation: the ENOENT listing error, the
dedicated formula-not-found error `ErrCouldNotFindFormula`, and any error
coming back from an injected collaborator. -/
inductive Err where
  | notFound (path : List String)
  | couldNotFindFormula
  | collaborator (msg : String)
deriving DecidableEq

/-- Payload of the serialized index produced by the external tree
generator; its internal structure is irrelevant to the deletion core. -/
def TreeData := List (List String)

instance : DecidableEq TreeData := by
  unfold TreeData
  infer_instance

/-- One observable filesystem-level step of the operation. -/
inductive Ev where
  | removeAll (path : List String)
  | readDir (path : List String)
  | generate (path : List String)
  | writeTree (path : List String)
deriving DecidableEq

/-- Path an event touches. -/
def evPath : Ev → List String
  | .removeAll p => p
  | .readDir p => p
  | .generate p => p
  | .writeTree p => p

/-- State threaded through a run: the filesystem, the current content of
the serialized index file (none when absent), and the event log. -/
structure St where
  fs : FsNode
  treeJson : Option TreeData
  log : List Ev

/-- The `os.RemoveAll` call as a state step. -/
def removeAllOp (path : List String) (st : St) : St :=
  { st with fs := removeAll st.fs path, log := st.log ++ [Ev.removeAll path] }

/-- Listing result of `ioutil.ReadDir`: the entries when the path names a
directory, failure otherwise. -/
def readDir (fs : FsNode) (path : List String) : Option (List (String × FsNode)) :=
  match findNode fs path with
  | some (.dir entries) => some entries
  | _ => none

/-- Translation of `canDelete` (delete_formula.go, lines 238-251): list the
directory, fail with the listing error when that fails, otherwise report
true exactly when no listed entry is itself a directory. -/
def canDelete (st : St) (workspace : List String) : Except Err Bool × St :=
  let st1 : St := { st with log := st.log ++ [Ev.readDir workspace] }
  match readDir st.fs workspace with
  | none => (.error (.notFound workspace), st1)
  | some files => (.ok (files.all fun f => !f.2.isDir), st1)

/-- Translation of `deleteFormula` (delete_formula.go, lines 205-236).
At `index = len(groups)` the full joined path is removed unconditionally.
Otherwise the call recurses one segment deeper; an inner error is returned
unchanged; at index 0 the unwind stops without a prune check; at deeper
indices `canDelete` decides whether the current ancestor is pruned.
`groups.getD index ""` stands for the Go indexing `groups[index]`, whose
bound always holds on this branch; the final catch-all branch is
unreachable from any call with `index` at most `groups.length` (in Go an
over-large index would be an out-of-range panic). -/
def deleteFormula (st : St) (workspace groups : List String) (index : Nat) : Option Err × St :=
  if index = groups.length then
    (none, removeAllOp workspace st)
  else if h : index < groups.length then
    match deleteFormula st (workspace ++ [groups.getD index ""]) groups (index + 1) with
    | (some e, st1) => (some e, st1)
    | (none, st1) =>
      if index = 0 then
        (none, st1)
      else
        match canDelete st1 workspace with
        | (.error e, st2) => (some e, st2)
        | (.ok ok, st2) =>
          if ok then (none, removeAllOp workspace st2) else (none, st2)
  else
    (none, st)
termination_by groups.length - index
decreasing_by omega

/-- The unwind step of one `deleteFormula` frame below the root: propagate
an inner error unchanged, otherwise run the prune check and remove the
current ancestor exactly when it reports true. -/
def pruneStep (workspace : List String) : Option Err × St → Option Err × St
  | (some e, st1) => (some e, st1)
  | (none, st1) =>
    match canDelete st1 workspace with
    | (.error e, st2) => (some e, st2)
    | (.ok ok, st2) =>
      if ok then (none, removeAllOp workspace st2) else (none, st2)

/-- Structural companion of `deleteFormula` for the frames below the root
(index at least 1), recursing on the remaining segment list; the prune
check runs on every unwind step.  `deleteFormula_cons` proves that the
top-level call agrees with it. -/
def deleteFormulaTail (st : St) (workspace : List String) : List String → Option Err × St
  | [] => (none, removeAllOp workspace st)
  | s :: rest => pruneStep workspace (deleteFormulaTail st (workspace ++ [s]) rest)

/-- The injected dependencies of `deleteFormulaCmd` that the deletion core
uses: the ritchie home directory and the external tree generator
(`formula.TreeGenerator`), which reads the filesystem at a root path and
either produces the serialized index structure or fails. -/
structure DeleteFormulaCmd where
  ritchieHomeDir : List String
  treeGen : FsNode → List String → Except Err TreeData

/-- The fixed local mirror root `filepath.Join(d.ritchieHomeDir, "repos",
"local")`. -/
def ritchieLocalWorkspace (d : DeleteFormulaCmd) : List String :=
  d.ritchieHomeDir ++ ["repos", "local"]

/-- Translation of `recriateTreeJson` (delete_formula.go, lines 253-265):
generate the tree from the given root, return a generation error
unchanged, otherwise overwrite the index file in full at
`ritchieHomeDir/repos/local/tree.json`.  The discarded
`json.MarshalIndent` error cannot occur for tree data and marshalling is
modelled as part of the total write. -/
def recriateTreeJson (d : DeleteFormulaCmd) (st : St) (workspace : List String) : Option Err × St :=
  match d.treeGen st.fs workspace with
  | .error e => (some e, { st with log := st.log ++ [Ev.generate workspace] })
  | .ok localTree =>
    (none,
      { st with
        treeJson := some localTree
        log := st.log ++
          [Ev.generate workspace,
           Ev.writeTree (d.ritchieHomeDir ++ ["repos", "local", "tree.json"])] })

/-- The parsed stdin request (struct `deleteFormulaStdin`). -/
structure deleteFormulaStdin where
  workspace : List String
  groups : List String

/-- Translation of the body of `runStdin` (delete_formula.go, lines
150-174) after the JSON input has been parsed: delete from the given
workspace, then from the local mirror with the same groups, then rebuild
the index; each failing step returns its error at once. -/
def runStdin (d : DeleteFormulaCmd) (input : deleteFormulaStdin) (st : St) : Option Err × St :=
  match deleteFormula st input.workspace input.groups 0 with
  | (some e, st1) => (some e, st1)
  | (none, st1) =>
    match deleteFormula st1 (ritchieLocalWorkspace d) input.groups 0 with
    | (some e, st2) => (some e, st2)
    | (none, st2) => recriateTreeJson d st2 (ritchieLocalWorkspace d)

/-- The reserved documentation entry excluded from listings before
classification; the constant is declared outside this repository slice. -/
def docsDir : String := "docs"

/-- Modelled from the spec: `isFormula` is declared outside this
repository slice (only its caller `readFormulas` is in `src/`).  Spec 4.1
classifies a listing as a Formula leaf exactly when it contains only
non-directory entries, an empty listing included; the model receives the
listed entries together with their nodes, since directoriness of an entry
is what the classification inspects. -/
def isFormula (entries : List (String × FsNode)) : Bool :=
  entries.all fun c => !c.2.isDir

theorem findEntry_sizeOf {cs : List (String × FsNode)} {s : String} {n : FsNode}
    (h : findEntry cs s = some n) : sizeOf n < sizeOf cs := by
  induction cs with
  | nil => simp [findEntry] at h
  | cons c cs ih =>
    obtain ⟨a, b⟩ := c
    by_cases hc : a == s
    · simp only [findEntry, hc, if_pos] at h
      cases h
      simp
      omega
    · simp only [findEntry, hc] at h
      have := ih h
      simp
      omega

/-- Translation of the recursion of `readFormulas` (delete_formula.go,
lines 176-203), carried out on the node of the current directory: list it
(a missing or non-directory path is the ENOENT listing error), drop the
reserved docs entry, stop with the empty group list when the listing
classifies as a Formula leaf, otherwise let the injected selector choose
one entry name, descend into it and prepend the selected name.  The
recursion descends into the selected child node, which coincides with the
re-listing of `filepath.Join(dir, selected)` done by the source. -/
def readFormulasNode (sel : List String → Except Err String) : FsNode → List String → Except Err (List String)
  | .file, dir => .error (.notFound dir)
  | .dir cs, dir =>
    if isFormula (cs.filter fun c => !(c.1 == docsDir)) then
      .ok []
    else
      match sel ((cs.map Prod.fst).filter fun s => !(s == docsDir)) with
      | .error e => .error e
      | .ok selected =>
        match hfe : findEntry cs selected with
        | none => .error (.notFound (dir ++ [selected]))
        | some child =>
          match readFormulasNode sel child (dir ++ [selected]) with
          | .error e => .error e
          | .ok aux => .ok (selected :: aux)
termination_by n _ => sizeOf n
decreasing_by
  have := findEntry_sizeOf hfe
  simp
  omega

/-- Entry point of `readFormulas` on a starting directory path; a path
that does not resolve fails with the listing error, as the first
`d.directory.List(dir, false)` call does in the source.  The Go function
returns a nil group slice exactly when the starting directory itself
classifies as a Formula leaf, which the model renders as the empty list
(every other successful return starts with a selected name). -/
def readFormulas (sel : List String → Except Err String) (fs : FsNode) (dir : List String) : Except Err (List String) :=
  match findNode fs dir with
  | none => .error (.notFound dir)
  | some n => readFormulasNode sel n dir

/-- The two prompt collaborators `runPrompt` consults after the workspace
has been resolved: the list selector used inside `readFormulas` and the
result of the yes-no confirmation. -/
structure PromptEnv where
  sel : List String → Except Err String
  confirm : Except Err Bool

/-- Translation of the body of `runPrompt` (delete_formula.go, lines
115-147) from the point where the workspace directory has been resolved
(the preceding workspace listing, selection, validation and registration
are external registry and prompt collaborators): resolve the groups, map
a nil group list to `ErrCouldNotFindFormula`, ask for confirmation, stop
silently on a negative answer, then run the same two deletions and the
index rebuild as the stdin entry point. -/
def runPrompt (d : DeleteFormulaCmd) (env : PromptEnv) (wspaceDir : List String) (st : St) : Option Err × St :=
  match readFormulas env.sel st.fs wspaceDir with
  | .error e => (some e, st)
  | .ok groups =>
    if groups.isEmpty then
      (some Err.couldNotFindFormula, st)
    else
      match env.confirm with
      | .error e => (some e, st)
      | .ok ans =>
        if !ans then
          (none, st)
        else
          match deleteFormula st wspaceDir groups 0 with
          | (some e, st1) => (some e, st1)
          | (none, st1) =>
            match deleteFormula st1 (ritchieLocalWorkspace d) groups 0 with
            | (some e, st2) => (some e, st2)
            | (none, st2) => recriateTreeJson d st2 (ritchieLocalWorkspace d)

/-- True when the first path is a prefix of the second, segmentwise. -/
def hasPfx : List String → List String → Bool
  | [], _ => true
  | _ :: _, [] => false
  | b :: bs, p :: ps => b == p && hasPfx bs ps

/-- True when the second path lies strictly below the first. -/
def strictlyUnder (base p : List String) : Bool :=
  hasPfx base p && decide (base.length < p.length)

theorem hasPfx_append (w q : List String) : hasPfx w (w ++ q) = true := by
  induction w with
  | nil => rfl
  | cons b bs ih => simp [hasPfx, ih]

theorem hasPfx_length {b p : List String} (h : hasPfx b p = true) :
    b.length ≤ p.length := by
  induction b generalizing p with
  | nil => simp
  | cons x bs ih =>
    cases p with
    | nil => simp [hasPfx] at h
    | cons y ps =>
      simp only [hasPfx, Bool.and_eq_true] at h
      have := ih h.2
      simp
      omega

theorem hasPfx_of_append {w t p : List String} (h : hasPfx (w ++ t) p = true) :
    hasPfx w p = true := by
  induction w generalizing p with
  | nil => rfl
  | cons b bs ih =>
    cases p with
    | nil => simp [hasPfx] at h
    | cons y ps =>
      simp only [List.cons_append, hasPfx, Bool.and_eq_true] at h ⊢
      exact ⟨h.1, ih h.2⟩

theorem findNode_append (p : List String) (fs : FsNode) (q : List String) :
    findNode fs (p ++ q) = (findNode fs p).bind (fun n => findNode n q) := by
  induction p generalizing fs with
  | nil => simp [findNode]
  | cons s ps ih =>
    cases fs with
    | file => simp [findNode]
    | dir cs =>
      simp only [List.cons_append, findNode]
      cases findEntry cs s with
      | none => simp
      | some child => simpa using ih child

theorem findNode_none_append {fs : FsNode} {p : List String}
    (h : findNode fs p = none) (q : List String) :
    findNode fs (p ++ q) = none := by
  rw [findNode_append, h]
  rfl

theorem findEntry_removeMap_self (cs : List (String × FsNode)) (s : String)
    (q : List String) :
    findEntry (cs.map fun c => if c.1 == s then (c.1, removeAll c.2 q) else c) s =
      (findEntry cs s).map fun n => removeAll n q := by
  induction cs with
  | nil => rfl
  | cons c cs ih =>
    by_cases hc : c.1 == s
    · simp only [List.map_cons, if_pos hc, findEntry]
      simp only [hc, if_pos, Option.map_some']
    · simp only [List.map_cons, if_neg hc, findEntry, if_neg hc]
      exact ih

theorem findEntry_removeMap_ne (cs : List (String × FsNode)) {s t : String}
    (h : t ≠ s) (q : List String) :
    findEntry (cs.map fun c => if c.1 == s then (c.1, removeAll c.2 q) else c) t =
      findEntry cs t := by
  induction cs with
  | nil => rfl
  | cons c cs ih =>
    by_cases hc : c.1 == s
    · have hct : (c.1 == t) = false := by
        have hcs : c.1 = s := by simpa using hc
        simp [hcs, Ne.symm h]
      simp only [List.map_cons, if_pos hc, findEntry, hct, Bool.false_eq_true,
        if_false]
      exact ih
    · simp only [List.map_cons, if_neg hc, findEntry]
      by_cases hct : c.1 == t
      · simp only [hct, if_pos]
      · simp only [hct, Bool.false_eq_true, if_false]
        exact ih

theorem findEntry_filter_self (cs : List (String × FsNode)) (s : String) :
    findEntry (cs.filter fun c => !(c.1 == s)) s = none := by
  induction cs with
  | nil => rfl
  | cons c cs ih =>
    by_cases hc : c.1 == s
    · simp [findEntry, hc, ih]
    · simp [findEntry, hc, ih]

theorem findEntry_filter_ne (cs : List (String × FsNode)) {s t : String}
    (h : t ≠ s) :
    findEntry (cs.filter fun c => !(c.1 == s)) t = findEntry cs t := by
  induction cs with
  | nil => rfl
  | cons c cs ih =>
    by_cases hc : c.1 == s
    · have hct : (c.1 == t) = false := by
        have : c.1 = s := by simpa using hc
        simp [this, Ne.symm h]
      simp [findEntry, hc, hct, ih]
    · simp [findEntry, hc, ih]

theorem removeAll_findNode (p : List String) (fs : FsNode) {q : List String}
    (hq : q ≠ []) :
    findNode (removeAll fs (p ++ q)) p = (findNode fs p).map fun n => removeAll n q := by
  induction p generalizing fs with
  | nil => simp [findNode]
  | cons s ps ih =>
    cases fs with
    | file =>
      cases q with
      | nil => exact absurd rfl hq
      | cons a as => simp [removeAll, findNode]
    | dir cs =>
      have hne : (ps ++ q).isEmpty = false := by
        cases q with
        | nil => exact absurd rfl hq
        | cons a as => simp
      simp only [List.cons_append, removeAll, List.append_eq, hne,
        Bool.false_eq_true, if_false, findNode]
      rw [findEntry_removeMap_self]
      cases findEntry cs s with
      | none => simp
      | some child => simpa using ih child

theorem removeAll_keeps_isSome {p : List String} (fs : FsNode) {r : List String}
    (h : hasPfx p r = false) :
    (findNode (removeAll fs p) r).isSome = (findNode fs r).isSome := by
  induction p generalizing fs r with
  | nil => simp [hasPfx] at h
  | cons s rest ih =>
    cases fs with
    | file => simp [removeAll]
    | dir cs =>
      cases r with
      | nil => simp [findNode]
      | cons t rs =>
        simp only [hasPfx, Bool.and_eq_false_iff] at h
        by_cases hts : t = s
        · subst hts
          have hrest : hasPfx rest rs = false := by
            rcases h with h | h
            · simp at h
            · exact h
          by_cases hre : rest = []
          · subst hre
            simp [hasPfx] at hrest
          · have hne : rest.isEmpty = false := by
              cases rest with
              | nil => exact absurd rfl hre
              | cons a as => rfl
            simp only [removeAll, hne, Bool.false_eq_true, if_false, findNode]
            rw [findEntry_removeMap_self]
            cases findEntry cs t with
            | none => simp
            | some child => simpa using ih child hrest
        · by_cases hre : rest.isEmpty
          · simp only [removeAll, hre, if_true, findNode]
            rw [findEntry_filter_ne cs hts]
          · simp only [removeAll, hre, if_false, findNode]
            rw [findEntry_removeMap_ne cs hts]

theorem removeAll_keeps_none {o : List String} {fs : FsNode} {r : List String}
    (h : findNode fs r = none) :
    findNode (removeAll fs o) r = none := by
  induction o generalizing fs r with
  | nil => simpa [removeAll] using h
  | cons s rest ih =>
    cases fs with
    | file => simpa [removeAll] using h
    | dir cs =>
      cases r with
      | nil => simp [findNode] at h
      | cons t rs =>
        simp only [findNode] at h
        by_cases hts : t = s
        · subst hts
          by_cases hre : rest.isEmpty
          · simp only [removeAll, hre, if_true, findNode]
            rw [findEntry_filter_self]
          · simp only [removeAll, hre, if_false, findNode]
            rw [findEntry_removeMap_self]
            cases hfe : findEntry cs t with
            | none => simp
            | some child =>
              rw [hfe] at h
              simpa using ih h
        · by_cases hre : rest.isEmpty
          · simp only [removeAll, hre, if_true, findNode]
            rw [findEntry_filter_ne cs hts]
            exact h
          · simp only [removeAll, hre, if_false, findNode]
            rw [findEntry_removeMap_ne cs hts]
            exact h

theorem removeAll_kills {p : List String} (fs : FsNode) {r : List String}
    (hp : p ≠ []) (h : hasPfx p r = true) :
    findNode (removeAll fs p) r = none := by
  induction p generalizing fs r with
  | nil => exact absurd rfl hp
  | cons s rest ih =>
    cases r with
    | nil => simp [hasPfx] at h
    | cons t rs =>
      simp only [hasPfx, Bool.and_eq_true, beq_iff_eq] at h
      obtain ⟨hst, hrest⟩ := h
      subst hst
      cases fs with
      | file => simp [removeAll, findNode]
      | dir cs =>
        by_cases hre : rest = []
        · subst hre
          simp only [removeAll, List.isEmpty_nil, if_true, findNode]
          rw [findEntry_filter_self]
        · have hne : rest.isEmpty = false := by
            cases rest with
            | nil => exact absurd rfl hre
            | cons a as => rfl
          simp only [removeAll, hne, Bool.false_eq_true, if_false, findNode]
          rw [findEntry_removeMap_self]
          cases findEntry cs s with
          | none => simp
          | some child => simpa using ih child hre hrest

theorem hasPfx_append_false {w r : List String} (h : hasPfx w r = false)
    (t : List String) : hasPfx (w ++ t) r = false := by
  cases hh : hasPfx (w ++ t) r with
  | false => rfl
  | true => rw [hasPfx_of_append hh] at h; cases h

theorem getD_append_len (pre : List String) (s : String) (rs : List String) :
    (pre ++ s :: rs).getD pre.length "" = s := by
  induction pre with
  | nil => rfl
  | cons a as ih => simpa using ih

theorem canDelete_eq (st : St) (w : List String) :
    canDelete st w =
      ((match readDir st.fs w with
        | none => Except.error (Err.notFound w)
        | some files => Except.ok (files.all fun f => !f.2.isDir)),
        { st with log := st.log ++ [Ev.readDir w] }) := by
  unfold canDelete
  cases readDir st.fs w <;> rfl

theorem pruneStep_some (w : List String) (e : Err) (st1 : St) :
    pruneStep w (some e, st1) = (some e, st1) := rfl

theorem pruneStep_none_eq (w : List String) (st1 : St) :
    pruneStep w (none, st1) =
      (match readDir st1.fs w with
        | none => (some (Err.notFound w), { st1 with log := st1.log ++ [Ev.readDir w] })
        | some files =>
          if files.all (fun f => !f.2.isDir) then
            (none, removeAllOp w { st1 with log := st1.log ++ [Ev.readDir w] })
          else
            (none, { st1 with log := st1.log ++ [Ev.readDir w] })) := by
  simp only [pruneStep, canDelete_eq]
  cases readDir st1.fs w with
  | none => rfl
  | some files => cases files.all (fun f => !f.2.isDir) <;> rfl

theorem pruneStep_parent_missing (w : List String) (st1 : St)
    (h : findNode st1.fs w = none) :
    pruneStep w (none, st1) =
      (some (Err.notFound w), { st1 with log := st1.log ++ [Ev.readDir w] }) := by
  rw [pruneStep_none_eq]
  simp only [readDir, h]

theorem pruneStep_check (w : List String) (st1 : St) {cs : List (String × FsNode)}
    (h : findNode st1.fs w = some (FsNode.dir cs)) :
    pruneStep w (none, st1) =
      if cs.all (fun f => !f.2.isDir) then
        (none, removeAllOp w { st1 with log := st1.log ++ [Ev.readDir w] })
      else
        (none, { st1 with log := st1.log ++ [Ev.readDir w] }) := by
  rw [pruneStep_none_eq]
  simp only [readDir, h]

theorem pruneStep_keeps_none (w : List String) (p : Option Err × St)
    {r : List String} (h : findNode p.2.fs r = none) :
    findNode (pruneStep w p).2.fs r = none := by
  obtain ⟨e1, st1⟩ := p
  cases e1 with
  | some e => exact h
  | none =>
    simp only [pruneStep, canDelete_eq]
    cases readDir st1.fs w with
    | none => exact h
    | some files =>
      simp only
      cases files.all (fun f => !f.2.isDir) with
      | false => exact h
      | true =>
        simp only [if_pos, removeAllOp]
        exact removeAll_keeps_none h

theorem pruneStep_keeps_isSome (w : List String) (p : Option Err × St)
    {r : List String} (h : hasPfx w r = false) :
    (findNode (pruneStep w p).2.fs r).isSome = (findNode p.2.fs r).isSome := by
  obtain ⟨e1, st1⟩ := p
  cases e1 with
  | some e => rfl
  | none =>
    simp only [pruneStep, canDelete_eq]
    cases readDir st1.fs w with
    | none => rfl
    | some files =>
      simp only
      cases files.all (fun f => !f.2.isDir) with
      | false => rfl
      | true =>
        simp only [if_pos, removeAllOp]
        exact removeAll_keeps_isSome st1.fs h

theorem pruneStep_shape (w : List String) (p : Option Err × St) :
    ∃ add : List Ev,
      (pruneStep w p).2.log = p.2.log ++ add ∧
      (∀ ev ∈ add, ev = Ev.removeAll w ∨ ev = Ev.readDir w) ∧
      (pruneStep w p).2.treeJson = p.2.treeJson := by
  obtain ⟨e1, st1⟩ := p
  cases e1 with
  | some e =>
    refine ⟨[], ?_, ?_, rfl⟩
    · simp [pruneStep_some]
    · intro ev hev
      simp at hev
  | none =>
    rw [pruneStep_none_eq]
    cases readDir st1.fs w with
    | none =>
      refine ⟨[Ev.readDir w], rfl, ?_, rfl⟩
      intro ev hev
      simp only [List.mem_singleton] at hev
      exact Or.inr hev
    | some files =>
      dsimp only
      cases files.all (fun f => !f.2.isDir) with
      | false =>
        refine ⟨[Ev.readDir w], ?_, ?_, ?_⟩
        · simp
        · intro ev hev
          simp only [List.mem_singleton] at hev
          exact Or.inr hev
        · simp
      | true =>
        refine ⟨[Ev.readDir w, Ev.removeAll w], ?_, ?_, ?_⟩
        · simp [removeAllOp]
        · intro ev hev
          simp only [List.mem_cons, List.mem_singleton, List.not_mem_nil,
            or_false] at hev
          rcases hev with hev | hev
          · exact Or.inr hev
          · exact Or.inl hev
        · simp [removeAllOp]

theorem pruneStep_error (w : List String) (p : Option Err × St) {e : Err} {st1 : St}
    (h : pruneStep w p = (some e, st1)) :
    p = (some e, st1) ∨
      (p.1 = none ∧ e = Err.notFound w ∧
        st1 = { p.2 with log := p.2.log ++ [Ev.readDir w] }) := by
  obtain ⟨e1, stA⟩ := p
  cases e1 with
  | some eA =>
    left
    exact h
  | none =>
    right
    rw [pruneStep_none_eq] at h
    revert h
    cases readDir stA.fs w with
    | none =>
      intro h
      injection h with h1 h2
      injection h1 with h1
      exact ⟨rfl, h1.symm, h2.symm⟩
    | some files =>
      dsimp only
      cases files.all (fun f => !f.2.isDir) with
      | false =>
        intro h
        simp at h
      | true =>
        intro h
        simp at h

theorem deleteFormulaTail_target_removed (rest : List String) :
    ∀ (st : St) (w : List String), w ≠ [] →
      findNode (deleteFormulaTail st w rest).2.fs (w ++ rest) = none := by
  induction rest with
  | nil =>
    intro st w hw
    have hp : hasPfx w (w ++ []) = true := hasPfx_append w []
    simpa [deleteFormulaTail, removeAllOp] using removeAll_kills st.fs hw hp
  | cons s rs ih =>
    intro st w hw
    have hassoc : w ++ s :: rs = (w ++ [s]) ++ rs := by simp
    rw [hassoc]
    have hinner := ih st (w ++ [s]) (by simp)
    simp only [deleteFormulaTail]
    exact pruneStep_keeps_none w _ hinner

theorem deleteFormulaTail_keeps_none (rest : List String) :
    ∀ (st : St) (w r : List String), findNode st.fs r = none →
      findNode (deleteFormulaTail st w rest).2.fs r = none := by
  induction rest with
  | nil =>
    intro st w r h
    simpa [deleteFormulaTail, removeAllOp] using removeAll_keeps_none h
  | cons s rs ih =>
    intro st w r h
    simp only [deleteFormulaTail]
    exact pruneStep_keeps_none w _ (ih st (w ++ [s]) r h)

theorem deleteFormulaTail_keeps_isSome (rest : List String) :
    ∀ (st : St) (w r : List String), hasPfx w r = false →
      (findNode (deleteFormulaTail st w rest).2.fs r).isSome =
        (findNode st.fs r).isSome := by
  induction rest with
  | nil =>
    intro st w r h
    simpa [deleteFormulaTail, removeAllOp] using removeAll_keeps_isSome st.fs h
  | cons s rs ih =>
    intro st w r h
    simp only [deleteFormulaTail]
    rw [pruneStep_keeps_isSome w _ h]
    exact ih st (w ++ [s]) r (hasPfx_append_false h [s])

theorem deleteFormulaTail_shape (rest : List String) :
    ∀ (st : St) (w : List String),
      ∃ new : List Ev,
        (deleteFormulaTail st w rest).2.log = st.log ++ new ∧
        (∀ ev ∈ new, ∃ p, (ev = Ev.removeAll p ∨ ev = Ev.readDir p) ∧ hasPfx w p = true) ∧
        (deleteFormulaTail st w rest).2.treeJson = st.treeJson := by
  induction rest with
  | nil =>
    intro st w
    refine ⟨[Ev.removeAll w], by simp [deleteFormulaTail, removeAllOp], ?_, by rfl⟩
    intro ev hev
    simp only [List.mem_singleton] at hev
    exact ⟨w, Or.inl hev, by simpa using hasPfx_append w []⟩
  | cons s rs ih =>
    intro st w
    obtain ⟨new1, hlog1, hev1, htj1⟩ := ih st (w ++ [s])
    obtain ⟨add, hlog2, hev2, htj2⟩ := pruneStep_shape w (deleteFormulaTail st (w ++ [s]) rs)
    have hrefl : hasPfx w w = true := by simpa using hasPfx_append w []
    refine ⟨new1 ++ add, ?_, ?_, ?_⟩
    · simp only [deleteFormulaTail]
      rw [hlog2, hlog1, List.append_assoc]
    · intro ev hev
      rcases List.mem_append.mp hev with hin | hin
      · obtain ⟨p, hc, hp⟩ := hev1 ev hin
        exact ⟨p, hc, hasPfx_of_append hp⟩
      · rcases hev2 ev hin with hc | hc
        · exact ⟨w, Or.inl hc, hrefl⟩
        · exact ⟨w, Or.inr hc, hrefl⟩
    · simp only [deleteFormulaTail]
      rw [htj2, htj1]

theorem deleteFormulaTail_parent_missing (rest : List String) :
    ∀ (st : St) (w : List String), rest ≠ [] →
      findNode st.fs (w ++ rest.dropLast) = none →
      ∃ st1, deleteFormulaTail st w rest =
        (some (Err.notFound (w ++ rest.dropLast)), st1) := by
  induction rest with
  | nil => intro st w hne; exact absurd rfl hne
  | cons s rs ih =>
    intro st w hne h
    cases rs with
    | nil =>
      simp only [List.dropLast_single, List.append_nil] at h ⊢
      simp only [deleteFormulaTail]
      have hnone : findNode (removeAllOp (w ++ [s]) st).fs w = none := by
        simpa [removeAllOp] using removeAll_keeps_none h
      rw [pruneStep_parent_missing w _ hnone]
      exact ⟨_, rfl⟩
    | cons t ts =>
      have hdl : (s :: t :: ts).dropLast = s :: (t :: ts).dropLast := rfl
      rw [hdl] at h ⊢
      have hassoc : w ++ s :: (t :: ts).dropLast = (w ++ [s]) ++ (t :: ts).dropLast := by
        simp
      rw [hassoc] at h ⊢
      obtain ⟨st1, hinner⟩ := ih st (w ++ [s]) (by simp) h
      have hstep : deleteFormulaTail st w (s :: t :: ts) =
          pruneStep w (deleteFormulaTail st (w ++ [s]) (t :: ts)) := rfl
      rw [hstep, hinner, pruneStep_some]
      exact ⟨st1, rfl⟩

theorem deleteFormulaTail_error (rest : List String) :
    ∀ (st : St) (w : List String) (e : Err) (st1 : St),
      deleteFormulaTail st w rest = (some e, st1) →
      ∃ p l, e = Err.notFound p ∧ st1.log = st.log ++ l ++ [Ev.readDir p] := by
  induction rest with
  | nil =>
    intro st w e st1 h
    simp [deleteFormulaTail] at h
  | cons s rs ih =>
    intro st w e st1 h
    simp only [deleteFormulaTail] at h
    rcases pruneStep_error w _ h with hp | ⟨hp1, hpe, hps⟩
    · exact ih st (w ++ [s]) e st1 hp
    · obtain ⟨new1, hlog1, -, -⟩ := deleteFormulaTail_shape rs st (w ++ [s])
      subst hpe hps
      exact ⟨w, new1, rfl, by simp [hlog1]⟩


theorem deleteFormula_eq_tail (rest : List String) :
    ∀ (pre : List String) (st : St) (w : List String), pre ≠ [] →
      deleteFormula st w (pre ++ rest) pre.length = deleteFormulaTail st w rest := by
  induction rest with
  | nil =>
    intro pre st w hpre
    rw [deleteFormula]
    simp [deleteFormulaTail]
  | cons s rs ih =>
    intro pre st w hpre
    rw [deleteFormula]
    have hlen : ¬ pre.length = (pre ++ s :: rs).length := by simp
    have hlt : pre.length < (pre ++ s :: rs).length := by simp
    rw [if_neg hlen, dif_pos hlt]
    have hget : (pre ++ s :: rs).getD pre.length "" = s := getD_append_len pre s rs
    rw [hget]
    have hinner : deleteFormula st (w ++ [s]) (pre ++ s :: rs) (pre.length + 1) =
        deleteFormulaTail st (w ++ [s]) rs := by
      have h1 : pre ++ s :: rs = (pre ++ [s]) ++ rs := by simp
      have h2 : pre.length + 1 = (pre ++ [s]).length := by simp
      rw [h1, h2]
      exact ih (pre ++ [s]) st (w ++ [s]) (by simp)
    rw [hinner]
    have hz : ¬ pre.length = 0 := by
      cases pre with
      | nil => exact absurd rfl hpre
      | cons a as => simp
    have hstep : deleteFormulaTail st w (s :: rs) =
        pruneStep w (deleteFormulaTail st (w ++ [s]) rs) := rfl
    rw [hstep]
    rcases hr : deleteFormulaTail st (w ++ [s]) rs with ⟨e1, st1⟩
    cases e1 with
    | some e => rfl
    | none =>
      dsimp only
      rw [if_neg hz]
      rfl

theorem deleteFormula_cons (st : St) (w : List String) (g0 : String) (gt : List String) :
    deleteFormula st w (g0 :: gt) 0 = deleteFormulaTail st (w ++ [g0]) gt := by
  rw [deleteFormula]
  have hlen : ¬ (0 = (g0 :: gt).length) := by simp
  have hlt : 0 < (g0 :: gt).length := by simp
  rw [if_neg hlen, dif_pos hlt]
  have hinner : deleteFormula st (w ++ [(g0 :: gt).getD 0 ""]) (g0 :: gt) (0 + 1) =
      deleteFormulaTail st (w ++ [g0]) gt := by
    have h1 : g0 :: gt = [g0] ++ gt := rfl
    show deleteFormula st (w ++ [g0]) (g0 :: gt) 1 = deleteFormulaTail st (w ++ [g0]) gt
    rw [h1]
    exact deleteFormula_eq_tail gt [g0] st (w ++ [g0]) (by simp)
  rw [hinner]
  rcases hr : deleteFormulaTail st (w ++ [g0]) gt with ⟨e1, st1⟩
  cases e1 with
  | some e => rfl
  | none => rfl

theorem hasPfx_self (p : List String) : hasPfx p p = true := by
  simpa using hasPfx_append p []

theorem hasPfx_append_single_false (root : List String) (s : String) :
    hasPfx (root ++ [s]) root = false := by
  cases hh : hasPfx (root ++ [s]) root with
  | false => rfl
  | true =>
    have := hasPfx_length hh
    simp at this

theorem strictlyUnder_of_append (root : List String) (s : String) {p : List String}
    (h : hasPfx (root ++ [s]) p = true) : strictlyUnder root p = true := by
  have h1 := hasPfx_of_append h
  have h2 := hasPfx_length h
  rw [List.length_append, List.length_singleton] at h2
  simp only [strictlyUnder, h1, Bool.true_and, decide_eq_true_eq]
  omega

theorem recriateTreeJson_fs (d : DeleteFormulaCmd) (st : St) (w : List String) :
    (recriateTreeJson d st w).2.fs = st.fs := by
  unfold recriateTreeJson
  cases d.treeGen st.fs w <;> rfl

/-- C1: for every root directory and every non-empty segment sequence,
`deleteFormula root segments 0` removes the leaf directory at the full
joined path `root ++ segments` together with everything beneath it, and
never removes the root itself: the root survives whenever it existed
before the call, even when every child of the root has been pruned away,
and no prune check or removal is ever applied to the root, since every
event of the call touches a path strictly below the root (the recursive
call at index 0 returns without any further check). -/
theorem C1_deleteFormula_removes_leaf_never_root (st : St) (root groups : List String)
    (hg : groups ≠ []) :
    findNode (deleteFormula st root groups 0).2.fs (root ++ groups) = none ∧
    (∀ ext, findNode (deleteFormula st root groups 0).2.fs (root ++ groups ++ ext) = none) ∧
    ((findNode st.fs root).isSome = true →
      (findNode (deleteFormula st root groups 0).2.fs root).isSome = true) ∧
    (∃ new, (deleteFormula st root groups 0).2.log = st.log ++ new ∧
      ∀ ev ∈ new, strictlyUnder root (evPath ev) = true) := by
  obtain ⟨g0, gt, rfl⟩ : ∃ g0 gt, groups = g0 :: gt := by
    cases groups with
    | nil => exact absurd rfl hg
    | cons a as => exact ⟨a, as, rfl⟩
  rw [deleteFormula_cons]
  have hpath : root ++ g0 :: gt = (root ++ [g0]) ++ gt := by simp
  have hleaf : findNode (deleteFormulaTail st (root ++ [g0]) gt).2.fs (root ++ g0 :: gt) = none := by
    rw [hpath]
    exact deleteFormulaTail_target_removed gt st (root ++ [g0]) (by simp)
  refine ⟨hleaf, ?_, ?_, ?_⟩
  · intro ext
    exact findNode_none_append hleaf ext
  · intro hsome
    rw [deleteFormulaTail_keeps_isSome gt st (root ++ [g0]) root
      (hasPfx_append_single_false root g0)]
    exact hsome
  · obtain ⟨new, hlog, hev, -⟩ := deleteFormulaTail_shape gt st (root ++ [g0])
    refine ⟨new, hlog, ?_⟩
    intro ev hin
    obtain ⟨p, hc, hp⟩ := hev ev hin
    have hsu := strictlyUnder_of_append root g0 hp
    rcases hc with hc | hc <;> rw [hc] <;> exact hsu

/-- Sample state for the witnesses: one workspace root `ws` holding the
single formula directory `a` (which contains one file). -/
def wsSample : St :=
  { fs := FsNode.dir [("ws", FsNode.dir [("a", FsNode.dir [("f", FsNode.file)])])]
    treeJson := none
    log := [] }

theorem C1_witness :
    (["a"] ≠ ([] : List String)) ∧
    (findNode (deleteFormula wsSample ["ws"] ["a"] 0).2.fs (["ws"] ++ ["a"]) = none ∧
    (∀ ext, findNode (deleteFormula wsSample ["ws"] ["a"] 0).2.fs (["ws"] ++ ["a"] ++ ext) = none) ∧
    ((findNode wsSample.fs ["ws"]).isSome = true →
      (findNode (deleteFormula wsSample ["ws"] ["a"] 0).2.fs ["ws"]).isSome = true) ∧
    (∃ new, (deleteFormula wsSample ["ws"] ["a"] 0).2.log = wsSample.log ++ new ∧
      ∀ ev ∈ new, strictlyUnder ["ws"] (evPath ev) = true)) :=
  ⟨by decide, C1_deleteFormula_removes_leaf_never_root wsSample ["ws"] ["a"] (by decide)⟩

/-- C4: `canDelete` reports true exactly when no immediate entry of the
listed directory is itself a directory (an empty or files-only directory
is prunable, one holding any sub-directory is not), and the unwind step of
`deleteFormula` removes the ancestor directory wholesale (stray files
included) precisely when that report is true, leaving it untouched
otherwise. -/
theorem C4_canDelete_no_subdirectory (st : St) (w : List String)
    (cs : List (String × FsNode)) (h : findNode st.fs w = some (FsNode.dir cs)) :
    (canDelete st w =
      (Except.ok (cs.all fun f => !f.2.isDir),
        { st with log := st.log ++ [Ev.readDir w] })) ∧
    ((cs.all fun f => !f.2.isDir) = true ↔ ∀ e ∈ cs, e.2.isDir = false) ∧
    (∀ st1 : St, findNode st1.fs w = some (FsNode.dir cs) →
      pruneStep w (none, st1) =
        if cs.all (fun f => !f.2.isDir) then
          (none, removeAllOp w { st1 with log := st1.log ++ [Ev.readDir w] })
        else
          (none, { st1 with log := st1.log ++ [Ev.readDir w] })) := by
  refine ⟨?_, ?_, ?_⟩
  · rw [canDelete_eq]
    simp only [readDir, h]
  · simp [List.all_eq_true]
  · intro st1 h1
    exact pruneStep_check w st1 h1

/-- Sample state for the prunability witness: the group `g` holds a stray
file and a sub-directory, so it must not be prunable. -/
def groupSample : St :=
  { fs := FsNode.dir [("g", FsNode.dir [("stray", FsNode.file), ("sub", FsNode.dir [])])]
    treeJson := none
    log := [] }

theorem C4_witness :
    (findNode groupSample.fs ["g"] =
      some (FsNode.dir [("stray", FsNode.file), ("sub", FsNode.dir [])])) ∧
    ((canDelete groupSample ["g"] =
      (Except.ok ([("stray", FsNode.file), ("sub", FsNode.dir [])].all fun f => !f.2.isDir),
        { groupSample with log := groupSample.log ++ [Ev.readDir ["g"]] })) ∧
    (([("stray", FsNode.file), ("sub", FsNode.dir [])].all fun f => !f.2.isDir) = true ↔
      ∀ e ∈ [("stray", FsNode.file), ("sub", FsNode.dir [])], e.2.isDir = false) ∧
    (∀ st1 : St, findNode st1.fs ["g"] =
        some (FsNode.dir [("stray", FsNode.file), ("sub", FsNode.dir [])]) →
      pruneStep ["g"] (none, st1) =
        if [("stray", FsNode.file), ("sub", FsNode.dir [])].all (fun f => !f.2.isDir) then
          (none, removeAllOp ["g"] { st1 with log := st1.log ++ [Ev.readDir ["g"]] })
        else
          (none, { st1 with log := st1.log ++ [Ev.readDir ["g"]] }))) :=
  ⟨rfl, C4_canDelete_no_subdirectory groupSample ["g"]
    [("stray", FsNode.file), ("sub", FsNode.dir [])] rfl⟩

/-- C10: for the empty segment sequence, `deleteFormula` hits its base
case at once and unconditionally removes the given root directory itself;
`runStdin` applies no non-emptiness check to the parsed groups, so a batch
request with an empty groups list removes the whole given workspace root
and then the whole local mirror root. -/
theorem C10_empty_groups_delete_root :
    (∀ (st : St) (w : List String), deleteFormula st w [] 0 = (none, removeAllOp w st)) ∧
    (∀ (d : DeleteFormulaCmd) (st : St) (ws : List String), ws ≠ [] →
      findNode (runStdin d ⟨ws, []⟩ st).2.fs ws = none ∧
      findNode (runStdin d ⟨ws, []⟩ st).2.fs (ritchieLocalWorkspace d) = none) := by
  have hbase : ∀ (st : St) (w : List String), deleteFormula st w [] 0 = (none, removeAllOp w st) := by
    intro st w
    rw [deleteFormula]
    simp
  refine ⟨hbase, ?_⟩
  intro d st ws hws
  have hmirror : ritchieLocalWorkspace d ≠ [] := by
    simp [ritchieLocalWorkspace]
  have hrun : (runStdin d ⟨ws, []⟩ st).2.fs =
      removeAll (removeAll st.fs ws) (ritchieLocalWorkspace d) := by
    unfold runStdin
    rw [hbase st ws]
    dsimp only
    rw [hbase (removeAllOp ws st) (ritchieLocalWorkspace d)]
    dsimp only
    rw [recriateTreeJson_fs]
    rfl
  rw [hrun]
  constructor
  · exact removeAll_keeps_none (removeAll_kills st.fs hws (hasPfx_self ws))
  · exact removeAll_kills (removeAll st.fs ws) hmirror (hasPfx_self (ritchieLocalWorkspace d))

theorem C10_witness :
    (["ws"] ≠ ([] : List String)) ∧
    (findNode (runStdin ⟨["rit"], fun _ _ => Except.ok []⟩
        ⟨["ws"], []⟩ wsSample).2.fs ["ws"] = none ∧
      findNode (runStdin ⟨["rit"], fun _ _ => Except.ok []⟩
        ⟨["ws"], []⟩ wsSample).2.fs
        (ritchieLocalWorkspace ⟨["rit"], fun _ _ => Except.ok []⟩) = none) :=
  ⟨by decide,
    C10_empty_groups_delete_root.2 ⟨["rit"], fun _ _ => Except.ok []⟩ wsSample ["ws"] (by decide)⟩

theorem pruneStep_prune (w : List String) (st1 : St) {cs : List (String × FsNode)}
    (h : findNode st1.fs w = some (FsNode.dir cs))
    (hall : cs.all (fun f => !f.2.isDir) = true) :
    pruneStep w (none, st1) =
      (none, removeAllOp w { st1 with log := st1.log ++ [Ev.readDir w] }) := by
  rw [pruneStep_check w st1 h, if_pos hall]

theorem pruneStep_keep (w : List String) (st1 : St) {cs : List (String × FsNode)}
    (h : findNode st1.fs w = some (FsNode.dir cs))
    (hall : cs.all (fun f => !f.2.isDir) = false) :
    pruneStep w (none, st1) =
      (none, { st1 with log := st1.log ++ [Ev.readDir w] }) := by
  rw [pruneStep_check w st1 h, if_neg]
  simp [hall]

/-- C2: when the only chain under the root is `a/b/c`, the call
`deleteFormula root [a, b, c] 0` removes `c` (the leaf, with its whole
contents), then finds `b` empty of sub-directories and removes it, then
finds `a` childless and removes it, while the root itself survives as a
now-empty directory; the event log shows each ancestor at indices 1 and 2
being checked independently and removed exactly when prunable. -/
theorem C2_full_chain_pruning (st : St) (root : List String) (a b c : String)
    (leafcs : List (String × FsNode))
    (h : findNode st.fs root =
      some (FsNode.dir [(a, FsNode.dir [(b, FsNode.dir [(c, FsNode.dir leafcs)])])])) :
    deleteFormula st root [a, b, c] 0 =
      (none,
        { fs := removeAll (removeAll (removeAll st.fs (root ++ [a, b, c]))
              (root ++ [a, b])) (root ++ [a])
          treeJson := st.treeJson
          log := st.log ++
            [Ev.removeAll (root ++ [a, b, c]),
             Ev.readDir (root ++ [a, b]), Ev.removeAll (root ++ [a, b]),
             Ev.readDir (root ++ [a]), Ev.removeAll (root ++ [a])] }) ∧
    findNode (deleteFormula st root [a, b, c] 0).2.fs root = some (FsNode.dir []) ∧
    findNode (deleteFormula st root [a, b, c] 0).2.fs (root ++ [a]) = none ∧
    findNode (deleteFormula st root [a, b, c] 0).2.fs (root ++ [a, b]) = none ∧
    findNode (deleteFormula st root [a, b, c] 0).2.fs (root ++ [a, b, c]) = none := by
  have hP2 : root ++ [a] ++ [b] = root ++ [a, b] := by simp
  have hP3 : root ++ [a, b] ++ [c] = root ++ [a, b, c] := by simp
  have hA1 : findNode st.fs (root ++ [a]) =
      some (FsNode.dir [(b, FsNode.dir [(c, FsNode.dir leafcs)])]) := by
    rw [findNode_append, h]
    simp [findNode, findEntry]
  have hA2 : findNode st.fs (root ++ [a, b]) = some (FsNode.dir [(c, FsNode.dir leafcs)]) := by
    rw [findNode_append, h]
    simp [findNode, findEntry]
  have hs1 : findNode (removeAllOp (root ++ [a, b, c]) st).fs (root ++ [a, b]) =
      some (FsNode.dir []) := by
    show findNode (removeAll st.fs (root ++ [a, b, c])) (root ++ [a, b]) = _
    rw [← hP3, removeAll_findNode (root ++ [a, b]) st.fs (by simp), hA2]
    simp [removeAll]
  have hstep2 : pruneStep (root ++ [a, b]) (none, removeAllOp (root ++ [a, b, c]) st) =
      (none, removeAllOp (root ++ [a, b])
        { removeAllOp (root ++ [a, b, c]) st with
          log := (removeAllOp (root ++ [a, b, c]) st).log ++ [Ev.readDir (root ++ [a, b])] }) :=
    pruneStep_prune (root ++ [a, b]) _ hs1 (by simp)
  have hs2 : findNode (removeAllOp (root ++ [a, b])
      { removeAllOp (root ++ [a, b, c]) st with
        log := (removeAllOp (root ++ [a, b, c]) st).log ++ [Ev.readDir (root ++ [a, b])] }).fs
      (root ++ [a]) = some (FsNode.dir []) := by
    show findNode (removeAll (removeAll st.fs (root ++ [a, b, c])) (root ++ [a, b]))
      (root ++ [a]) = _
    have hmid : findNode (removeAll st.fs (root ++ [a, b, c])) (root ++ [a]) =
        some (FsNode.dir [(b, FsNode.dir [])]) := by
      have hP3b : root ++ [a, b, c] = root ++ [a] ++ [b, c] := by simp
      rw [hP3b, removeAll_findNode (root ++ [a]) st.fs (by simp), hA1]
      simp [removeAll]
    rw [← hP2, removeAll_findNode (root ++ [a]) _ (by simp), hmid]
    simp [removeAll]
  have hstep1 : pruneStep (root ++ [a]) (none, removeAllOp (root ++ [a, b])
      { removeAllOp (root ++ [a, b, c]) st with
        log := (removeAllOp (root ++ [a, b, c]) st).log ++ [Ev.readDir (root ++ [a, b])] }) =
      (none, removeAllOp (root ++ [a])
        { removeAllOp (root ++ [a, b])
            { removeAllOp (root ++ [a, b, c]) st with
              log := (removeAllOp (root ++ [a, b, c]) st).log ++ [Ev.readDir (root ++ [a, b])] } with
          log := (removeAllOp (root ++ [a, b])
            { removeAllOp (root ++ [a, b, c]) st with
              log := (removeAllOp (root ++ [a, b, c]) st).log ++ [Ev.readDir (root ++ [a, b])] }).log
            ++ [Ev.readDir (root ++ [a])] }) :=
    pruneStep_prune (root ++ [a]) _ hs2 (by simp)
  have hEq : deleteFormula st root [a, b, c] 0 =
      (none,
        { fs := removeAll (removeAll (removeAll st.fs (root ++ [a, b, c]))
              (root ++ [a, b])) (root ++ [a])
          treeJson := st.treeJson
          log := st.log ++
            [Ev.removeAll (root ++ [a, b, c]),
             Ev.readDir (root ++ [a, b]), Ev.removeAll (root ++ [a, b]),
             Ev.readDir (root ++ [a]), Ev.removeAll (root ++ [a])] }) := by
    rw [deleteFormula_cons]
    have e0 : deleteFormulaTail st (root ++ [a]) [b, c] =
        pruneStep (root ++ [a]) (pruneStep (root ++ [a] ++ [b])
          (none, removeAllOp (root ++ [a] ++ [b] ++ [c]) st)) := rfl
    rw [e0, hP2, hP3, hstep2, hstep1]
    simp [removeAllOp]
  refine ⟨hEq, ?_, ?_, ?_, ?_⟩
  · rw [hEq]
    show findNode (removeAll (removeAll (removeAll st.fs (root ++ [a, b, c]))
      (root ++ [a, b])) (root ++ [a])) root = _
    rw [removeAll_findNode root _ (by simp), removeAll_findNode root _ (by simp),
      removeAll_findNode root st.fs (by simp), h]
    simp [removeAll]
  · rw [hEq]
    exact removeAll_kills _ (by simp) (hasPfx_self (root ++ [a]))
  · rw [hEq]
    have hpf : hasPfx (root ++ [a]) (root ++ [a, b]) = true := by
      rw [← hP2]
      exact hasPfx_append (root ++ [a]) [b]
    exact removeAll_kills _ (by simp) hpf
  · rw [hEq]
    have hpf : hasPfx (root ++ [a]) (root ++ [a, b, c]) = true := by
      have hP3b : root ++ [a, b, c] = root ++ [a] ++ [b, c] := by simp
      rw [hP3b]
      exact hasPfx_append (root ++ [a]) [b, c]
    exact removeAll_kills _ (by simp) hpf

/-- Sample state for the chain witness: the root holds only the chain
`h/g/t`, with the leaf `t` containing one file. -/
def chainSample : St :=
  { fs := FsNode.dir [("ws",
      FsNode.dir [("h", FsNode.dir [("g", FsNode.dir [("t",
        FsNode.dir [("src", FsNode.file)])])])])]
    treeJson := none
    log := [] }

theorem C2_witness :
    (findNode chainSample.fs ["ws"] =
      some (FsNode.dir [("h", FsNode.dir [("g", FsNode.dir [("t",
        FsNode.dir [("src", FsNode.file)])])])])) ∧
    (deleteFormula chainSample ["ws"] ["h", "g", "t"] 0 =
      (none,
        { fs := removeAll (removeAll (removeAll chainSample.fs (["ws"] ++ ["h", "g", "t"]))
              (["ws"] ++ ["h", "g"])) (["ws"] ++ ["h"])
          treeJson := chainSample.treeJson
          log := chainSample.log ++
            [Ev.removeAll (["ws"] ++ ["h", "g", "t"]),
             Ev.readDir (["ws"] ++ ["h", "g"]), Ev.removeAll (["ws"] ++ ["h", "g"]),
             Ev.readDir (["ws"] ++ ["h"]), Ev.removeAll (["ws"] ++ ["h"])] }) ∧
    findNode (deleteFormula chainSample ["ws"] ["h", "g", "t"] 0).2.fs ["ws"] =
      some (FsNode.dir []) ∧
    findNode (deleteFormula chainSample ["ws"] ["h", "g", "t"] 0).2.fs (["ws"] ++ ["h"]) = none ∧
    findNode (deleteFormula chainSample ["ws"] ["h", "g", "t"] 0).2.fs (["ws"] ++ ["h", "g"]) = none ∧
    findNode (deleteFormula chainSample ["ws"] ["h", "g", "t"] 0).2.fs
      (["ws"] ++ ["h", "g", "t"]) = none) :=
  ⟨rfl, C2_full_chain_pruning chainSample ["ws"] "h" "g" "t" [("src", FsNode.file)] rfl⟩

/-- C3: with two sibling directories `x` and `y` under the group `a`,
deleting `[a, x]` removes only the leaf `a/x`; the prune check at `a`
still sees the sub-directory `y`, so `a` and `a/y` survive untouched. -/
theorem C3_sibling_preserved (st : St) (root : List String) (a x y : String)
    (xnode : FsNode) (ycs : List (String × FsNode)) (hxy : x ≠ y)
    (h : findNode st.fs root =
      some (FsNode.dir [(a, FsNode.dir [(x, xnode), (y, FsNode.dir ycs)])])) :
    deleteFormula st root [a, x] 0 =
      (none,
        { fs := removeAll st.fs (root ++ [a, x])
          treeJson := st.treeJson
          log := st.log ++ [Ev.removeAll (root ++ [a, x]), Ev.readDir (root ++ [a])] }) ∧
    findNode (deleteFormula st root [a, x] 0).2.fs (root ++ [a]) =
      some (FsNode.dir [(y, FsNode.dir ycs)]) ∧
    findNode (deleteFormula st root [a, x] 0).2.fs (root ++ [a, y]) = some (FsNode.dir ycs) ∧
    findNode (deleteFormula st root [a, x] 0).2.fs (root ++ [a, x]) = none := by
  have hyx : y ≠ x := Ne.symm hxy
  have hPx : root ++ [a] ++ [x] = root ++ [a, x] := by simp
  have hA1 : findNode st.fs (root ++ [a]) =
      some (FsNode.dir [(x, xnode), (y, FsNode.dir ycs)]) := by
    rw [findNode_append, h]
    simp [findNode, findEntry]
  have hs1 : findNode (removeAllOp (root ++ [a, x]) st).fs (root ++ [a]) =
      some (FsNode.dir [(y, FsNode.dir ycs)]) := by
    show findNode (removeAll st.fs (root ++ [a, x])) (root ++ [a]) = _
    rw [← hPx, removeAll_findNode (root ++ [a]) st.fs (by simp), hA1]
    simp [removeAll, hyx]
  have hstep : pruneStep (root ++ [a]) (none, removeAllOp (root ++ [a, x]) st) =
      (none, { removeAllOp (root ++ [a, x]) st with
        log := (removeAllOp (root ++ [a, x]) st).log ++ [Ev.readDir (root ++ [a])] }) :=
    pruneStep_keep (root ++ [a]) _ hs1 (by simp [FsNode.isDir])
  have hEq : deleteFormula st root [a, x] 0 =
      (none,
        { fs := removeAll st.fs (root ++ [a, x])
          treeJson := st.treeJson
          log := st.log ++ [Ev.removeAll (root ++ [a, x]), Ev.readDir (root ++ [a])] }) := by
    rw [deleteFormula_cons]
    have e0 : deleteFormulaTail st (root ++ [a]) [x] =
        pruneStep (root ++ [a]) (none, removeAllOp (root ++ [a] ++ [x]) st) := rfl
    rw [e0, hPx, hstep]
    simp [removeAllOp]
  refine ⟨hEq, ?_, ?_, ?_⟩
  · rw [hEq]
    exact hs1
  · rw [hEq]
    have hPy : root ++ [a, y] = (root ++ [a]) ++ [y] := by simp
    rw [hPy, findNode_append]
    have hs1x : findNode (removeAll st.fs (root ++ [a, x])) (root ++ [a]) =
        some (FsNode.dir [(y, FsNode.dir ycs)]) := hs1
    rw [hs1x]
    simp [findNode, findEntry]
  · rw [hEq]
    exact removeAll_kills st.fs (by simp) (hasPfx_self (root ++ [a, x]))

/-- Sample state for the sibling witness: the group `d` holds the two
formula directories `b` and `p`. -/
def siblingSample : St :=
  { fs := FsNode.dir [("ws",
      FsNode.dir [("d", FsNode.dir [("b", FsNode.dir [("src", FsNode.file)]),
        ("p", FsNode.dir [("src", FsNode.file)])])])]
    treeJson := none
    log := [] }

theorem C3_witness :
    ("b" ≠ "p") ∧
    (findNode siblingSample.fs ["ws"] =
      some (FsNode.dir [("d", FsNode.dir [("b", FsNode.dir [("src", FsNode.file)]),
        ("p", FsNode.dir [("src", FsNode.file)])])])) ∧
    ((deleteFormula siblingSample ["ws"] ["d", "b"] 0 =
      (none,
        { fs := removeAll siblingSample.fs (["ws"] ++ ["d", "b"])
          treeJson := siblingSample.treeJson
          log := siblingSample.log ++
            [Ev.removeAll (["ws"] ++ ["d", "b"]), Ev.readDir (["ws"] ++ ["d"])] })) ∧
    findNode (deleteFormula siblingSample ["ws"] ["d", "b"] 0).2.fs (["ws"] ++ ["d"]) =
      some (FsNode.dir [("p", FsNode.dir [("src", FsNode.file)])]) ∧
    findNode (deleteFormula siblingSample ["ws"] ["d", "b"] 0).2.fs (["ws"] ++ ["d", "p"]) =
      some (FsNode.dir [("src", FsNode.file)]) ∧
    findNode (deleteFormula siblingSample ["ws"] ["d", "b"] 0).2.fs
      (["ws"] ++ ["d", "b"]) = none) :=
  ⟨by decide, rfl,
    C3_sibling_preserved siblingSample ["ws"] "d" "b" "p"
      (FsNode.dir [("src", FsNode.file)]) [("src", FsNode.file)] (by decide) rfl⟩

theorem deleteFormula_nil (st : St) (w : List String) :
    deleteFormula st w [] 0 = (none, removeAllOp w st) := by
  rw [deleteFormula]
  simp

theorem deleteFormula_keeps_none (st : St) (w g : List String) {r : List String}
    (h : findNode st.fs r = none) :
    findNode (deleteFormula st w g 0).2.fs r = none := by
  cases g with
  | nil =>
    rw [deleteFormula_nil]
    simpa [removeAllOp] using removeAll_keeps_none h
  | cons g0 gt =>
    rw [deleteFormula_cons]
    exact deleteFormulaTail_keeps_none gt st (w ++ [g0]) r h

/-- Number of index-file writes recorded in a log. -/
def writeCount (l : List Ev) : Nat :=
  (l.filter fun ev => match ev with | Ev.writeTree _ => true | _ => false).length

theorem writeCount_append (l1 l2 : List Ev) :
    writeCount (l1 ++ l2) = writeCount l1 + writeCount l2 := by
  simp [writeCount]

theorem deleteFormula_writeCount (st : St) (w g : List String) :
    writeCount (deleteFormula st w g 0).2.log = writeCount st.log ∧
    (deleteFormula st w g 0).2.treeJson = st.treeJson := by
  cases g with
  | nil =>
    rw [deleteFormula_nil]
    refine ⟨?_, rfl⟩
    simp [removeAllOp, writeCount]
  | cons g0 gt =>
    rw [deleteFormula_cons]
    obtain ⟨new, hlog, hev, htj⟩ := deleteFormulaTail_shape gt st (w ++ [g0])
    refine ⟨?_, htj⟩
    rw [hlog, writeCount_append]
    have hz : writeCount new = 0 := by
      have hnil : (new.filter fun ev =>
          match ev with | Ev.writeTree _ => true | _ => false) = [] := by
        rw [List.filter_eq_nil_iff]
        intro ev hin
        obtain ⟨p, hc, -⟩ := hev ev hin
        rcases hc with hc | hc <;> subst hc <;> simp
      simp [writeCount, hnil]
    omega

/-- With a resolved non-empty group list and a positive confirmation, the
interactive entry point runs exactly the deletion pipeline of the stdin
entry point. -/
theorem runPrompt_resolved (d : DeleteFormulaCmd) (env : PromptEnv) (wdir : List String)
    (st : St) (groups : List String)
    (hrf : readFormulas env.sel st.fs wdir = Except.ok groups)
    (hg : groups ≠ []) (hc : env.confirm = Except.ok true) :
    runPrompt d env wdir st = runStdin d ⟨wdir, groups⟩ st := by
  unfold runPrompt runStdin
  rw [hrf]
  dsimp only
  have hne : groups.isEmpty = false := by
    cases groups with
    | nil => exact absurd rfl hg
    | cons a as => rfl
  rw [hne, hc]
  rfl

/-- C5 counterexample: after deleting the single-segment formula `a` from
the root `ws`, the target path is gone, yet running the exact same
deletion a second time returns no error at all: the unconditional
`os.RemoveAll` on the missing leaf succeeds and index 0 skips every prune
check, so no not-found error arises. -/
theorem C5_counterexample :
    (deleteFormula wsSample ["ws"] ["a"] 0).1 = none ∧
    findNode (deleteFormula wsSample ["ws"] ["a"] 0).2.fs (["ws"] ++ ["a"]) = none ∧
    (deleteFormula (deleteFormula wsSample ["ws"] ["a"] 0).2 ["ws"] ["a"] 0).1 = none := by
  have h1 : deleteFormula wsSample ["ws"] ["a"] 0 = (none, removeAllOp ["ws", "a"] wsSample) := by
    rw [deleteFormula_cons]
    rfl
  refine ⟨?_, ?_, ?_⟩
  · rw [h1]
  · rw [h1]
    rfl
  · rw [h1, deleteFormula_cons]
    rfl

/-- Sample state of a root whose children have all been pruned away. -/
def prunedSample : St :=
  { fs := FsNode.dir [("ws", FsNode.dir [])]
    treeJson := none
    log := [] }

/-- C5 amended: re-deletion surfaces a not-found error only through the
prune check of the leaf parent.  For a sequence of length at least two
whose leaf-parent path no longer exists (as after a first run that pruned
the whole ancestor chain), the second run returns exactly the not-found
listing error for that parent; for a single-segment sequence, or when the
parent directory still exists, the second run returns nil silently,
because `os.RemoveAll` on a missing path succeeds. -/
theorem C5_amended_redelete_not_found (st : St) (root : List String)
    (g0 : String) (gt : List String) (hgt : gt ≠ [])
    (h : findNode st.fs (root ++ (g0 :: gt).dropLast) = none) :
    ∃ st1, deleteFormula st root (g0 :: gt) 0 =
      (some (Err.notFound (root ++ (g0 :: gt).dropLast)), st1) := by
  rw [deleteFormula_cons]
  have hdl : (g0 :: gt).dropLast = g0 :: gt.dropLast := by
    cases gt with
    | nil => exact absurd rfl hgt
    | cons t ts => rfl
  rw [hdl] at h ⊢
  have hassoc : root ++ g0 :: gt.dropLast = (root ++ [g0]) ++ gt.dropLast := by simp
  rw [hassoc] at h ⊢
  exact deleteFormulaTail_parent_missing gt st (root ++ [g0]) hgt h

theorem C5_witness :
    ((["g"] : List String) ≠ []) ∧
    findNode prunedSample.fs (["ws"] ++ ("h" :: ["g"]).dropLast) = none ∧
    (∃ st1, deleteFormula prunedSample ["ws"] ("h" :: ["g"]) 0 =
      (some (Err.notFound (["ws"] ++ ("h" :: ["g"]).dropLast)), st1)) :=
  ⟨by decide, rfl,
    C5_amended_redelete_not_found prunedSample ["ws"] "h" ["g"] (by decide) rfl⟩

/-- C6: in both entry points the deletion runs first against the selected
workspace root and then, unconditionally and with the exact same segment
sequence, against the fixed local mirror root
`ritchieHomeDir/repos/local`; when the mirror pass fails, its error is
returned to the caller, and the returned state is the one the mirror pass
left behind, built on top of the completed workspace pass: nothing the
workspace pass deleted is restored. -/
theorem C6_dual_tree_no_rollback :
    (∀ (d : DeleteFormulaCmd) (inp : deleteFormulaStdin) (st st1 st2 : St) (e : Err),
      deleteFormula st inp.workspace inp.groups 0 = (none, st1) →
      deleteFormula st1 (ritchieLocalWorkspace d) inp.groups 0 = (some e, st2) →
      runStdin d inp st = (some e, st2) ∧
      ∀ p, findNode st1.fs p = none → findNode st2.fs p = none) ∧
    (∀ (d : DeleteFormulaCmd) (env : PromptEnv) (wdir : List String) (st st1 st2 : St)
      (groups : List String) (e : Err),
      readFormulas env.sel st.fs wdir = Except.ok groups → groups ≠ [] →
      env.confirm = Except.ok true →
      deleteFormula st wdir groups 0 = (none, st1) →
      deleteFormula st1 (ritchieLocalWorkspace d) groups 0 = (some e, st2) →
      runPrompt d env wdir st = (some e, st2) ∧
      ∀ p, findNode st1.fs p = none → findNode st2.fs p = none) := by
  have hstdin : ∀ (d : DeleteFormulaCmd) (inp : deleteFormulaStdin) (st st1 st2 : St) (e : Err),
      deleteFormula st inp.workspace inp.groups 0 = (none, st1) →
      deleteFormula st1 (ritchieLocalWorkspace d) inp.groups 0 = (some e, st2) →
      runStdin d inp st = (some e, st2) ∧
      ∀ p, findNode st1.fs p = none → findNode st2.fs p = none := by
    intro d inp st st1 st2 e h1 h2
    constructor
    · unfold runStdin
      rw [h1]
      dsimp only
      rw [h2]
    · intro p hp
      have hsnd : (deleteFormula st1 (ritchieLocalWorkspace d) inp.groups 0).2 = st2 := by
        rw [h2]
      rw [← hsnd]
      exact deleteFormula_keeps_none st1 (ritchieLocalWorkspace d) inp.groups hp
  refine ⟨hstdin, ?_⟩
  intro d env wdir st st1 st2 groups e hrf hg hc h1 h2
  rw [runPrompt_resolved d env wdir st groups hrf hg hc]
  exact hstdin d ⟨wdir, groups⟩ st st1 st2 e h1 h2

/-- Start state for the dual-tree witnesses: the workspace holds the
sibling formulas `d/b` and `d/p`; the mirror root exists but holds no
formulas, so the mirror pass fails with not-found on `d`. -/
def c6Start : St :=
  { fs := FsNode.dir
      [("ws", FsNode.dir [("d", FsNode.dir
          [("b", FsNode.dir [("src", FsNode.file)]),
           ("p", FsNode.dir [("src", FsNode.file)])])]),
       ("rit", FsNode.dir [("repos", FsNode.dir [("local", FsNode.dir [])])])]
    treeJson := none
    log := [] }

def c6Cmd : DeleteFormulaCmd := ⟨["rit"], fun _ _ => Except.ok []⟩

def c6Mid : St := (deleteFormulaTail c6Start (["ws"] ++ ["d"]) ["b"]).2

def c6End : St := (deleteFormulaTail c6Mid (ritchieLocalWorkspace c6Cmd ++ ["d"]) ["b"]).2

theorem C6_witness :
    (deleteFormula c6Start ["ws"] ["d", "b"] 0 = (none, c6Mid)) ∧
    (deleteFormula c6Mid (ritchieLocalWorkspace c6Cmd) ["d", "b"] 0 =
      (some (Err.notFound (ritchieLocalWorkspace c6Cmd ++ ["d"])), c6End)) ∧
    (runStdin c6Cmd ⟨["ws"], ["d", "b"]⟩ c6Start =
      (some (Err.notFound (ritchieLocalWorkspace c6Cmd ++ ["d"])), c6End) ∧
      ∀ p, findNode c6Mid.fs p = none → findNode c6End.fs p = none) :=
  ⟨by rw [deleteFormula_cons]; rfl,
   by rw [deleteFormula_cons]; rfl,
   C6_dual_tree_no_rollback.1 c6Cmd ⟨["ws"], ["d", "b"]⟩ c6Start c6Mid c6End
     (Err.notFound (ritchieLocalWorkspace c6Cmd ++ ["d"]))
     (by rw [deleteFormula_cons]; rfl)
     (by rw [deleteFormula_cons]; rfl)⟩

/-- C9: when the starting workspace directory itself classifies as a
Formula leaf, the empty directory included, `readFormulas` returns the
empty group list with no error, and `runPrompt` then stops with the
dedicated `ErrCouldNotFindFormula` before any deletion: the state it
returns is exactly the input state. -/
theorem C9_not_found_is_distinct (d : DeleteFormulaCmd) (env : PromptEnv)
    (wdir : List String) (st : St) (cs : List (String × FsNode))
    (h : findNode st.fs wdir = some (FsNode.dir cs))
    (hleaf : isFormula (cs.filter fun c => !(c.1 == docsDir)) = true) :
    readFormulas env.sel st.fs wdir = Except.ok [] ∧
    runPrompt d env wdir st = (some Err.couldNotFindFormula, st) := by
  have hrf : readFormulas env.sel st.fs wdir = Except.ok [] := by
    unfold readFormulas
    rw [h]
    simp only [readFormulasNode]
    rw [if_pos hleaf]
  refine ⟨hrf, ?_⟩
  unfold runPrompt
  rw [hrf]
  rfl

theorem C9_witness :
    (findNode prunedSample.fs ["ws"] = some (FsNode.dir [])) ∧
    (isFormula (([] : List (String × FsNode)).filter fun c => !(c.1 == docsDir)) = true) ∧
    (readFormulas (fun _ => Except.error (Err.collaborator "unused")) prunedSample.fs ["ws"] =
        Except.ok [] ∧
      runPrompt ⟨["rit"], fun _ _ => Except.ok []⟩
        ⟨fun _ => Except.error (Err.collaborator "unused"), Except.ok true⟩
        ["ws"] prunedSample = (some Err.couldNotFindFormula, prunedSample)) :=
  ⟨rfl, by decide,
    C9_not_found_is_distinct ⟨["rit"], fun _ _ => Except.ok []⟩
      ⟨fun _ => Except.error (Err.collaborator "unused"), Except.ok true⟩
      ["ws"] prunedSample [] rfl (by decide)⟩

/-- C7: in both entry points, the non-interactive stdin one included, the
serialized index at `ritchieHomeDir/repos/local/tree.json` is regenerated
from the local mirror root and fully overwritten exactly once per
successful deletion, strictly after both deletion passes: when either
pass fails, the index content and the count of index writes are
unchanged; on success the new content is the generator output computed on
the post-deletion mirror filesystem, and the generate and write events
are appended after every deletion event, the write count growing by
exactly one. -/
theorem C7_index_regen_after_deletions :
    (∀ (d : DeleteFormulaCmd) (inp : deleteFormulaStdin) (st st1 : St) (e : Err),
      deleteFormula st inp.workspace inp.groups 0 = (some e, st1) →
      runStdin d inp st = (some e, st1) ∧ st1.treeJson = st.treeJson ∧
      writeCount st1.log = writeCount st.log) ∧
    (∀ (d : DeleteFormulaCmd) (inp : deleteFormulaStdin) (st st1 st2 : St) (e : Err),
      deleteFormula st inp.workspace inp.groups 0 = (none, st1) →
      deleteFormula st1 (ritchieLocalWorkspace d) inp.groups 0 = (some e, st2) →
      runStdin d inp st = (some e, st2) ∧ st2.treeJson = st.treeJson ∧
      writeCount st2.log = writeCount st.log) ∧
    (∀ (d : DeleteFormulaCmd) (inp : deleteFormulaStdin) (st st1 st2 : St) (t : TreeData),
      deleteFormula st inp.workspace inp.groups 0 = (none, st1) →
      deleteFormula st1 (ritchieLocalWorkspace d) inp.groups 0 = (none, st2) →
      d.treeGen st2.fs (ritchieLocalWorkspace d) = Except.ok t →
      runStdin d inp st =
        (none, { st2 with
          treeJson := some t
          log := st2.log ++ [Ev.generate (ritchieLocalWorkspace d),
            Ev.writeTree (d.ritchieHomeDir ++ ["repos", "local", "tree.json"])] }) ∧
      writeCount (st2.log ++ [Ev.generate (ritchieLocalWorkspace d),
          Ev.writeTree (d.ritchieHomeDir ++ ["repos", "local", "tree.json"])]) =
        writeCount st.log + 1) ∧
    (∀ (d : DeleteFormulaCmd) (env : PromptEnv) (wdir : List String) (st st1 : St)
      (groups : List String) (e : Err),
      readFormulas env.sel st.fs wdir = Except.ok groups → groups ≠ [] →
      env.confirm = Except.ok true →
      deleteFormula st wdir groups 0 = (some e, st1) →
      runPrompt d env wdir st = (some e, st1) ∧ st1.treeJson = st.treeJson ∧
      writeCount st1.log = writeCount st.log) ∧
    (∀ (d : DeleteFormulaCmd) (env : PromptEnv) (wdir : List String) (st st1 st2 : St)
      (groups : List String) (e : Err),
      readFormulas env.sel st.fs wdir = Except.ok groups → groups ≠ [] →
      env.confirm = Except.ok true →
      deleteFormula st wdir groups 0 = (none, st1) →
      deleteFormula st1 (ritchieLocalWorkspace d) groups 0 = (some e, st2) →
      runPrompt d env wdir st = (some e, st2) ∧ st2.treeJson = st.treeJson ∧
      writeCount st2.log = writeCount st.log) ∧
    (∀ (d : DeleteFormulaCmd) (env : PromptEnv) (wdir : List String) (st st1 st2 : St)
      (groups : List String) (t : TreeData),
      readFormulas env.sel st.fs wdir = Except.ok groups → groups ≠ [] →
      env.confirm = Except.ok true →
      deleteFormula st wdir groups 0 = (none, st1) →
      deleteFormula st1 (ritchieLocalWorkspace d) groups 0 = (none, st2) →
      d.treeGen st2.fs (ritchieLocalWorkspace d) = Except.ok t →
      runPrompt d env wdir st =
        (none, { st2 with
          treeJson := some t
          log := st2.log ++ [Ev.generate (ritchieLocalWorkspace d),
            Ev.writeTree (d.ritchieHomeDir ++ ["repos", "local", "tree.json"])] })) := by
  have hpres : ∀ (st : St) (w g : List String) (e : Option Err) (stA : St),
      deleteFormula st w g 0 = (e, stA) →
      stA.treeJson = st.treeJson ∧ writeCount stA.log = writeCount st.log := by
    intro st w g e stA h
    obtain ⟨hwc, htj⟩ := deleteFormula_writeCount st w g
    have hsnd : (deleteFormula st w g 0).2 = stA := by rw [h]
    rw [hsnd] at hwc htj
    exact ⟨htj, hwc⟩
  have hS1 : ∀ (d : DeleteFormulaCmd) (inp : deleteFormulaStdin) (st st1 : St) (e : Err),
      deleteFormula st inp.workspace inp.groups 0 = (some e, st1) →
      runStdin d inp st = (some e, st1) ∧ st1.treeJson = st.treeJson ∧
      writeCount st1.log = writeCount st.log := by
    intro d inp st st1 e h1
    refine ⟨?_, (hpres st inp.workspace inp.groups (some e) st1 h1).1,
      (hpres st inp.workspace inp.groups (some e) st1 h1).2⟩
    unfold runStdin
    rw [h1]
  have hS2 : ∀ (d : DeleteFormulaCmd) (inp : deleteFormulaStdin) (st st1 st2 : St) (e : Err),
      deleteFormula st inp.workspace inp.groups 0 = (none, st1) →
      deleteFormula st1 (ritchieLocalWorkspace d) inp.groups 0 = (some e, st2) →
      runStdin d inp st = (some e, st2) ∧ st2.treeJson = st.treeJson ∧
      writeCount st2.log = writeCount st.log := by
    intro d inp st st1 st2 e h1 h2
    obtain ⟨htj1, hwc1⟩ := hpres st inp.workspace inp.groups none st1 h1
    obtain ⟨htj2, hwc2⟩ := hpres st1 (ritchieLocalWorkspace d) inp.groups (some e) st2 h2
    refine ⟨?_, htj2.trans htj1, hwc2.trans hwc1⟩
    unfold runStdin
    rw [h1]
    dsimp only
    rw [h2]
  have hS3 : ∀ (d : DeleteFormulaCmd) (inp : deleteFormulaStdin) (st st1 st2 : St) (t : TreeData),
      deleteFormula st inp.workspace inp.groups 0 = (none, st1) →
      deleteFormula st1 (ritchieLocalWorkspace d) inp.groups 0 = (none, st2) →
      d.treeGen st2.fs (ritchieLocalWorkspace d) = Except.ok t →
      runStdin d inp st =
        (none, { st2 with
          treeJson := some t
          log := st2.log ++ [Ev.generate (ritchieLocalWorkspace d),
            Ev.writeTree (d.ritchieHomeDir ++ ["repos", "local", "tree.json"])] }) ∧
      writeCount (st2.log ++ [Ev.generate (ritchieLocalWorkspace d),
          Ev.writeTree (d.ritchieHomeDir ++ ["repos", "local", "tree.json"])]) =
        writeCount st.log + 1 := by
    intro d inp st st1 st2 t h1 h2 hgen
    obtain ⟨htj1, hwc1⟩ := hpres st inp.workspace inp.groups none st1 h1
    obtain ⟨htj2, hwc2⟩ := hpres st1 (ritchieLocalWorkspace d) inp.groups none st2 h2
    constructor
    · unfold runStdin
      rw [h1]
      dsimp only
      rw [h2]
      dsimp only
      unfold recriateTreeJson
      rw [hgen]
    · rw [writeCount_append, hwc2, hwc1]
      have hone : writeCount [Ev.generate (ritchieLocalWorkspace d),
          Ev.writeTree (d.ritchieHomeDir ++ ["repos", "local", "tree.json"])] = 1 := by
        simp [writeCount]
      rw [hone]
  refine ⟨hS1, hS2, hS3, ?_, ?_, ?_⟩
  · intro d env wdir st st1 groups e hrf hg hc h1
    rw [runPrompt_resolved d env wdir st groups hrf hg hc]
    exact hS1 d ⟨wdir, groups⟩ st st1 e h1
  · intro d env wdir st st1 st2 groups e hrf hg hc h1 h2
    rw [runPrompt_resolved d env wdir st groups hrf hg hc]
    exact hS2 d ⟨wdir, groups⟩ st st1 st2 e h1 h2
  · intro d env wdir st st1 st2 groups t hrf hg hc h1 h2 hgen
    rw [runPrompt_resolved d env wdir st groups hrf hg hc]
    exact (hS3 d ⟨wdir, groups⟩ st st1 st2 t h1 h2 hgen).1

/-- Start state for the regeneration witness: workspace and mirror both
hold the sibling formulas `d/b` and `d/p`, so both deletion passes
succeed. -/
def c7Start : St :=
  { fs := FsNode.dir
      [("ws", FsNode.dir [("d", FsNode.dir
          [("b", FsNode.dir [("src", FsNode.file)]),
           ("p", FsNode.dir [("src", FsNode.file)])])]),
       ("rit", FsNode.dir [("repos", FsNode.dir [("local", FsNode.dir
          [("d", FsNode.dir
            [("b", FsNode.dir [("src", FsNode.file)]),
             ("p", FsNode.dir [("src", FsNode.file)])])])])])]
    treeJson := none
    log := [] }

def c7Mid : St := (deleteFormulaTail c7Start (["ws"] ++ ["d"]) ["b"]).2

def c7End : St := (deleteFormulaTail c7Mid (ritchieLocalWorkspace c6Cmd ++ ["d"]) ["b"]).2

theorem C7_witness :
    (deleteFormula c7Start ["ws"] ["d", "b"] 0 = (none, c7Mid)) ∧
    (deleteFormula c7Mid (ritchieLocalWorkspace c6Cmd) ["d", "b"] 0 = (none, c7End)) ∧
    (c6Cmd.treeGen c7End.fs (ritchieLocalWorkspace c6Cmd) = Except.ok []) ∧
    (runStdin c6Cmd ⟨["ws"], ["d", "b"]⟩ c7Start =
      (none, { c7End with
        treeJson := some []
        log := c7End.log ++ [Ev.generate (ritchieLocalWorkspace c6Cmd),
          Ev.writeTree (c6Cmd.ritchieHomeDir ++ ["repos", "local", "tree.json"])] }) ∧
      writeCount (c7End.log ++ [Ev.generate (ritchieLocalWorkspace c6Cmd),
          Ev.writeTree (c6Cmd.ritchieHomeDir ++ ["repos", "local", "tree.json"])]) =
        writeCount c7Start.log + 1) :=
  ⟨by rw [deleteFormula_cons]; rfl,
   by rw [deleteFormula_cons]; rfl,
   rfl,
   C7_index_regen_after_deletions.2.2.1 c6Cmd ⟨["ws"], ["d", "b"]⟩ c7Start c7Mid c7End []
     (by rw [deleteFormula_cons]; rfl)
     (by rw [deleteFormula_cons]; rfl)
     rfl⟩

/-- C8: every error produced during the deletion operation is handed back
to the immediate caller unchanged, and none is retried or discarded:
a failing `deleteFormula` run returns exactly the not-found error of the
directory listing that failed, which is the final event of its log (no
operation follows the failure); a failing index generation returns the
generator error unchanged, with the index file not written; and an error
of the stdin entry point is exactly the error of the single stage that
failed, later stages never being attempted. -/
theorem C8_errors_propagate :
    (∀ (st : St) (w : List String) (g0 : String) (gt : List String) (e : Err) (st1 : St),
      deleteFormula st w (g0 :: gt) 0 = (some e, st1) →
      ∃ p l, e = Err.notFound p ∧ st1.log = st.log ++ l ++ [Ev.readDir p]) ∧
    (∀ (d : DeleteFormulaCmd) (st : St) (w : List String) (e : Err) (st1 : St),
      recriateTreeJson d st w = (some e, st1) →
      d.treeGen st.fs w = Except.error e ∧
      st1 = { st with log := st.log ++ [Ev.generate w] }) ∧
    (∀ (d : DeleteFormulaCmd) (inp : deleteFormulaStdin) (st : St) (e : Err) (st1 : St),
      runStdin d inp st = (some e, st1) →
      deleteFormula st inp.workspace inp.groups 0 = (some e, st1) ∨
      (∃ stA, deleteFormula st inp.workspace inp.groups 0 = (none, stA) ∧
        deleteFormula stA (ritchieLocalWorkspace d) inp.groups 0 = (some e, st1)) ∨
      (∃ stA stB, deleteFormula st inp.workspace inp.groups 0 = (none, stA) ∧
        deleteFormula stA (ritchieLocalWorkspace d) inp.groups 0 = (none, stB) ∧
        recriateTreeJson d stB (ritchieLocalWorkspace d) = (some e, st1))) := by
  refine ⟨?_, ?_, ?_⟩
  · intro st w g0 gt e st1 h
    rw [deleteFormula_cons] at h
    exact deleteFormulaTail_error gt st (w ++ [g0]) e st1 h
  · intro d st w e st1 h
    unfold recriateTreeJson at h
    revert h
    cases hg : d.treeGen st.fs w with
    | error eg =>
      intro h
      injection h with h1 h2
      injection h1 with h1
      refine ⟨?_, h2.symm⟩
      rw [h1]
    | ok t =>
      intro h
      simp at h
  · intro d inp st e st1 h
    unfold runStdin at h
    rcases hd1 : deleteFormula st inp.workspace inp.groups 0 with ⟨e1, stA⟩
    rw [hd1] at h
    cases e1 with
    | some eA =>
      dsimp only at h
      left
      exact h
    | none =>
      dsimp only at h
      rcases hd2 : deleteFormula stA (ritchieLocalWorkspace d) inp.groups 0 with ⟨e2, stB⟩
      rw [hd2] at h
      cases e2 with
      | some eB =>
        dsimp only at h
        right
        left
        refine ⟨stA, rfl, ?_⟩
        rw [hd2]
        exact h
      | none =>
        dsimp only at h
        right
        right
        refine ⟨stA, stB, rfl, ?_, h⟩
        rw [hd2]

theorem C8_witness :
    (deleteFormula c6Mid (ritchieLocalWorkspace c6Cmd) ["d", "b"] 0 =
      (some (Err.notFound (ritchieLocalWorkspace c6Cmd ++ ["d"])), c6End)) ∧
    (∃ p l, Err.notFound (ritchieLocalWorkspace c6Cmd ++ ["d"]) = Err.notFound p ∧
      c6End.log = c6Mid.log ++ l ++ [Ev.readDir p]) :=
  ⟨by rw [deleteFormula_cons]; rfl,
   C8_errors_propagate.1 c6Mid (ritchieLocalWorkspace c6Cmd) "d" ["b"]
     (Err.notFound (ritchieLocalWorkspace c6Cmd ++ ["d"])) c6End
     (by rw [deleteFormula_cons]; rfl)⟩

end DeleteFormulaGo
